import Mathlib

/-!
# Verification of the NocoDB Simple Client bulk-dispatch core and example scripts

This development embeds, in Lean 4, the behaviour of the repository's
concurrency-limited bulk-operation dispatcher together with two example-script
behaviours (the `.env` reading example and the async script's dependency
check), and proves the specification's claims about them.

The SDK package `nocodb_simple_client` itself (async client, bulk methods,
exceptions module) is not part of the reviewed sources; only the example
scripts that call it are.  Following the specification, the dispatcher is
modelled as a small-step transition system: `N` per-item tasks, a counting
permit pool of capacity `C` (the example's `asyncio.Semaphore(max_concurrent)`),
and a pre-sized result slot per input index (the order-preserving
`asyncio.gather`).  A schedule of the cooperative event loop is a path in the
transition relation, so properties quantified over "all interleavings" become
properties of all reachable states.
-/

/-- Modelled from the spec: the error taxonomy of the single-record operation
collaborator (`nocodb_simple_client.exceptions` is not in the reviewed
sources).  Spec §7: "`RemoteError` subtypes — `NotFound`,
`AuthenticationFailure`, `RateLimited(retry_after)`, `ServiceError(message)`,
and `Timeout` (dispatcher-imposed)."  The example script imports the
corresponding `RecordNotFoundException`, `AuthenticationException`,
`RateLimitException` (carrying `retry_after`) and `NocoDBException`
(carrying `message`). -/
inductive RemoteError where
  | NotFound : RemoteError
  | AuthenticationFailure : RemoteError
  | RateLimited : Nat → RemoteError
  | ServiceError : String → RemoteError
  | Timeout : RemoteError
deriving DecidableEq, Repr

/-- Spec §3: "Outcome: tagged variant — `Success(value)` or `Failure(error)`." -/
inductive Outcome (α : Type) where
  | Success : α → Outcome α
  | Failure : RemoteError → Outcome α
deriving DecidableEq, Repr

/-- The phase of one per-item task of a batch: not yet started (waiting to
acquire a permit), holding a permit with its remote call in flight, or
finished with its recorded outcome.  Mirrors the lifecycle of one
`process_with_limit(record)` coroutine in `example_custom_concurrency`
(src/examples/async_example.py): before `async with semaphore`, inside it,
and returned. -/
inductive TaskPhase (α : Type) where
  | pending : TaskPhase α
  | running : TaskPhase α
  | done : Outcome α → TaskPhase α
deriving DecidableEq, Repr

/-- Whether a task currently holds a permit (its remote call is in flight). -/
def TaskPhase.isRunning {α : Type} : TaskPhase α → Bool
  | .running => true
  | _ => false

/-- Whether a task has not yet acquired a permit. -/
def TaskPhase.isPending {α : Type} : TaskPhase α → Bool
  | .pending => true
  | _ => false

/-- Whether a task has finished (successfully or not). -/
def TaskPhase.isDone {α : Type} : TaskPhase α → Bool
  | .done _ => true
  | _ => false

/-- Modelled from the spec: the state of one batch dispatch (the SDK's
dispatcher internals are not in the reviewed sources; spec §4.1, §5).
`phases` holds one slot per input index — the "pre-sized result storage"
of spec §4.1 step 3 — and `calls` counts how many remote calls have been
started so far. -/
structure DispatchState (α : Type) where
  phases : List (TaskPhase α)
  calls : Nat
deriving DecidableEq, Repr

/-- Number of tasks currently holding a permit: the operations
"concurrently in flight" of spec §4.1. -/
def runningCount {α : Type} (phases : List (TaskPhase α)) : Nat :=
  phases.countP TaskPhase.isRunning

/-- Number of tasks that have not yet started their operation. -/
def pendingCount {α : Type} (phases : List (TaskPhase α)) : Nat :=
  phases.countP TaskPhase.isPending

/-- Number of tasks that have finished their operation. -/
def doneCount {α : Type} (phases : List (TaskPhase α)) : Nat :=
  phases.countP TaskPhase.isDone

/-- All tasks of the batch have finished. -/
def allDone {α : Type} (phases : List (TaskPhase α)) : Bool :=
  phases.all TaskPhase.isDone

/-- Modelled from the spec: the initial state of a batch dispatch over the
given payload list — every task pending, no remote call issued yet
(spec §4.1 step 2: all N operations are launched as independent tasks,
each first waiting on the permit pool). -/
def initState {α β : Type} (payloads : List β) : DispatchState α :=
  { phases := payloads.map (fun _ => TaskPhase.pending), calls := 0 }

/-- Modelled from the spec: one scheduler step of the cooperative dispatch
(spec §4.1 and §5; the SDK dispatcher is not in the reviewed sources, the
pattern mirrors `process_with_limit` in src/examples/async_example.py).
`op` gives the outcome of the single-record operation on each payload
(`Success` of its value, or `Failure` of the `RemoteError` it raises);
which pending or running task moves next is the scheduler's free choice,
so every interleaving of completions is a path of this relation.

* `acquire`: a pending task obtains a permit — only when fewer than `C`
  permits are held — and issues its remote call (spec §4.1 step 1,
  "acquire a counting permit (capacity C) before starting each item's
  operation").
* `finish`: a running task's remote call completes with the operation's
  outcome for its own payload, recorded at its own index, and its permit
  is released unconditionally (spec §4.1 steps 1 and 3). -/
inductive Step {α β : Type} (C : Nat) (op : β → Outcome α) (payloads : List β) :
    DispatchState α → DispatchState α → Prop where
  | acquire (s : DispatchState α) (i : Nat)
      (hpend : s.phases.get? i = some TaskPhase.pending)
      (hcap : runningCount s.phases < C) :
      Step C op payloads s { phases := s.phases.set i TaskPhase.running, calls := s.calls + 1 }
  | finish (s : DispatchState α) (i : Nat) (p : β)
      (hrun : s.phases.get? i = some TaskPhase.running)
      (hp : payloads.get? i = some p) :
      Step C op payloads s { phases := s.phases.set i (TaskPhase.done (op p)), calls := s.calls }

/-- A dispatch state reachable from the start of the batch under some
schedule of the event loop. -/
def Reachable {α β : Type} (C : Nat) (op : β → Outcome α) (payloads : List β)
    (s : DispatchState α) : Prop :=
  Relation.ReflTransGen (Step C op payloads) (initState payloads) s

/-- The result sequence `asyncio.gather` returns once every task has
finished: the outcomes read off the result slots in input order; `none`
while some task is still unfinished. -/
def gatherResult {α : Type} : List (TaskPhase α) → Option (List (Outcome α))
  | [] => some []
  | TaskPhase.done o :: rest => (gatherResult rest).map (fun l => o :: l)
  | TaskPhase.pending :: _ => none
  | TaskPhase.running :: _ => none

/-- The state invariant of a batch dispatch: one result slot per payload;
every finished slot holds the operation's outcome for its own payload; at
most `C` permits held; and every remote call started so far either still
holds its permit or has finished and released it. -/
def DispatchInv {α β : Type} (C : Nat) (op : β → Outcome α) (payloads : List β)
    (s : DispatchState α) : Prop :=
  s.phases.length = payloads.length ∧
  (∀ i o, s.phases.get? i = some (TaskPhase.done o) →
    ∃ p, payloads.get? i = some p ∧ o = op p) ∧
  runningCount s.phases ≤ C ∧
  s.calls = runningCount s.phases + doneCount s.phases

/-- The state at the end of a fully successful schedule: every slot holds the
operation's outcome for its payload and exactly one remote call was issued
per payload. -/
def finalState {α β : Type} (op : β → Outcome α) (payloads : List β) : DispatchState α :=
  { phases := payloads.map (fun p => TaskPhase.done (op p)), calls := payloads.length }

/-- The slots after the sequential schedule has fully processed the first `k`
payloads and not yet touched the rest. -/
def midPhases {α β : Type} (op : β → Outcome α) (payloads : List β) (k : Nat) :
    List (TaskPhase α) :=
  (payloads.take k).map (fun p => TaskPhase.done (op p)) ++
    (payloads.drop k).map (fun _ => TaskPhase.pending)

/-- Batch-level errors: per spec §7 the batch call itself can only fail when
the batch-level contract is violated. -/
inductive BatchError where
  | MalformedInput : BatchError
deriving DecidableEq, Repr

/-- Modelled from the spec: the caller-facing batch call of the SDK
(`bulk_insert_records` / `bulk_update_records`; not in the reviewed
sources).  Spec §7: "a per-item failure is captured as a `Failure` Outcome,
never raised out of the dispatcher directly — the batch call itself only
fails outright if the batch-level contract is violated (e.g., malformed
input list)".  A malformed batch-level input is modelled as `none`; the
optional, non-default "fail batch on total failure" mode is not enabled. -/
def bulkDispatch {α β : Type} (op : β → Outcome α) :
    Option (List β) → Except BatchError (List (Outcome α))
  | none => Except.error BatchError.MalformedInput
  | some payloads => Except.ok (payloads.map op)

/-- Association-list lookup, first binding wins: models both `os.environ`
lookup (`os.getenv`) and lookup in the mapping `dotenv_values` returns. -/
def lookupEnv (env : List (String × String)) (k : String) : Option String :=
  match env with
  | [] => none
  | (k', v) :: rest => if k = k' then some v else lookupEnv rest k

/-- Split file content into its lines at newline characters (`cur` holds
the characters of the current line, most recent first). -/
def splitLines (cs : List Char) (cur : List Char) : List (List Char) :=
  match cs with
  | [] => [cur.reverse]
  | c :: rest =>
    if c = '\n' then cur.reverse :: splitLines rest []
    else splitLines rest (c :: cur)

/-- Split a line at its first `=`: the key characters before it and, when an
`=` is present, the value characters after it. -/
def splitKeyValue (cs : List Char) : List Char × Option (List Char) :=
  match cs with
  | [] => ([], none)
  | c :: rest =>
    if c = '=' then ([], some rest)
    else
      let (k, v) := splitKeyValue rest
      (c :: k, v)

/-- One line of a `.env` file as `python-dotenv` reads the files of the
dotenv example: an empty line or a `#` comment yields nothing, any other
line binds the text before its first `=` to the text after it (no line of
the example's files needs quoting, whitespace stripping or `export`
handling). -/
def parseEnvLine (line : List Char) : Option (String × String) :=
  match line with
  | [] => none
  | c :: _ =>
    if c = '#' then none
    else
      match splitKeyValue line with
      | (_, none) => none
      | (k, some v) => some (String.mk k, String.mk v)

/-- `dotenv.dotenv_values`, the external collaborator called by
`example_dotenv_values` (src/examples/dotenv_example.py line 244): parses
the file content into a mapping.  Per its documented contract — restated by
the example's own comments, "Read values without modifying os.environ" — it
is a pure read: it takes no environment and returns none. -/
def dotenvValues (content : String) : List (String × String) :=
  (splitLines content.data []).filterMap parseEnvLine

/-- The process state touched by the dotenv example: the process
environment (`os.environ`) and the temporary directory's files, as
path-content pairs. -/
structure ProcState where
  environ : List (String × String)
  files : List (String × String)
deriving DecidableEq, Repr

/-- The `.env` content `example_dotenv_values` writes
(src/examples/dotenv_example.py lines 233-237). -/
def isolatedEnvContent : String :=
  "\nNOCODB_BASE_URL=https://isolated-example.com\nNOCODB_API_TOKEN=isolated-token\nNOCODB_TIMEOUT=45.0\n"

/-- `Path.write_text`: store the content under the path, shadowing any
previous file there.  Only the file system changes. -/
def writeText (ps : ProcState) (path content : String) : ProcState :=
  { ps with files := (path, content) :: ps.files }

/-- Read a file's content back from the file system. -/
def readText (ps : ProcState) (path : String) : Option String :=
  lookupEnv ps.files path

/-- Embedding of `example_dotenv_values` (src/examples/dotenv_example.py
lines 227-263): write the sample `.env` into the temporary directory, read
it back with `dotenv_values` into `config_dict`, and return that mapping
together with the resulting process state.  (The subsequent `NocoDBConfig`
construction only reads `config_dict` and is outside the claim.) -/
def exampleDotenvValues (ps : ProcState) (tmpdir : String) :
    List (String × String) × ProcState :=
  let envPath := tmpdir ++ "/.env"
  let ps1 := writeText ps envPath isolatedEnvContent
  let configDict :=
    match readText ps1 envPath with
    | some content => dotenvValues content
    | none => []
  (configDict, ps1)

/-- Which optional dependencies `importlib.util.find_spec` finds. -/
structure DepsAvailable where
  aiohttp : Bool
  aiofiles : Bool
deriving DecidableEq, Repr

/-- The observable top-level actions of src/examples/async_example.py up to
its import of the `nocodb_simple_client` package. -/
inductive ScriptEvent where
  | PrintedInstallMessage : ScriptEvent
  | ExitedWith : Nat → ScriptEvent
  | ImportedNocodbPackage : ScriptEvent
deriving DecidableEq, Repr

/-- `ASYNC_AVAILABLE` (src/examples/async_example.py lines 24-27): both
`aiohttp` and `aiofiles` must be found. -/
def asyncAvailable (deps : DepsAvailable) : Bool :=
  deps.aiohttp && deps.aiofiles

/-- Embedding of the module top level of src/examples/async_example.py
(lines 24-53): compute `ASYNC_AVAILABLE`; when it is false, print the
installation message and `sys.exit(1)` — ending the trace before any
package import; only otherwise reach the `nocodb_simple_client` import
statements. -/
def asyncExampleTopLevel (deps : DepsAvailable) : List ScriptEvent :=
  if asyncAvailable deps then
    [ScriptEvent.ImportedNocodbPackage]
  else
    [ScriptEvent.PrintedInstallMessage, ScriptEvent.ExitedWith 1]

/-- Replacing the element at index `i` changes a `countP` by swapping the
old element's contribution for the new one's. -/
theorem countP_set_add {τ : Type} (p : τ → Bool) (l : List τ) (i : Nat) (a b : τ)
    (h : l.get? i = some a) :
    (l.set i b).countP p + (if p a then 1 else 0) = l.countP p + (if p b then 1 else 0) := by
  induction l generalizing i with
  | nil => simp at h
  | cons x t ih =>
    cases i with
    | zero =>
      simp only [List.get?] at h
      cases h
      simp only [List.set, List.countP_cons]
      omega
    | succ j =>
      simp only [List.get?] at h
      have := ih j h
      simp only [List.set, List.countP_cons]
      omega

/-- Setting the slot at the length of the left part of an append rewrites the
head of the right part. -/
theorem set_append_length {τ : Type} (A B : List τ) (x y : τ) :
    (A ++ x :: B).set A.length y = A ++ y :: B := by
  induction A with
  | nil => rfl
  | cons a t ih =>
    show a :: (t ++ x :: B).set t.length y = a :: (t ++ y :: B)
    rw [ih]

theorem dispatchInv_init {α β : Type} (C : Nat) (op : β → Outcome α) (payloads : List β) :
    DispatchInv C op payloads (initState (α := α) payloads) := by
  refine ⟨by simp [initState], ?_, ?_, ?_⟩
  · intro i o h
    simp only [initState, List.get?_map] at h
    cases hp : payloads.get? i <;> rw [hp] at h <;> simp at h
  · have hr : runningCount (α := α) ((payloads.map (fun _ => TaskPhase.pending))) = 0 := by
      rw [runningCount, List.countP_eq_zero]
      intro a ha
      rcases List.mem_map.mp ha with ⟨_, _, rfl⟩
      simp [TaskPhase.isRunning]
    show runningCount (payloads.map (fun _ => TaskPhase.pending)) ≤ C
    rw [hr]
    exact Nat.zero_le C
  · have hr : runningCount (α := α) ((payloads.map (fun _ => TaskPhase.pending))) = 0 := by
      rw [runningCount, List.countP_eq_zero]
      intro a ha
      rcases List.mem_map.mp ha with ⟨_, _, rfl⟩
      simp [TaskPhase.isRunning]
    have hd : doneCount (α := α) ((payloads.map (fun _ => TaskPhase.pending))) = 0 := by
      rw [doneCount, List.countP_eq_zero]
      intro a ha
      rcases List.mem_map.mp ha with ⟨_, _, rfl⟩
      simp [TaskPhase.isDone]
    show (0 : Nat) = runningCount (payloads.map (fun _ => TaskPhase.pending)) +
      doneCount (payloads.map (fun _ => TaskPhase.pending))
    rw [hr, hd]

theorem dispatchInv_step {α β : Type} {C : Nat} {op : β → Outcome α} {payloads : List β}
    {s s' : DispatchState α} (hinv : DispatchInv C op payloads s)
    (hstep : Step C op payloads s s') : DispatchInv C op payloads s' := by
  obtain ⟨hlen, hdone, hrun, hcalls⟩ := hinv
  cases hstep with
  | acquire i hpend hcap =>
    have hruneq := countP_set_add TaskPhase.isRunning s.phases i _ TaskPhase.running hpend
    have hdoneeq := countP_set_add TaskPhase.isDone s.phases i _ TaskPhase.running hpend
    simp [TaskPhase.isRunning, TaskPhase.isDone] at hruneq hdoneeq
    refine ⟨by simp [hlen], ?_, ?_, ?_⟩
    · intro j o h
      by_cases hij : i = j
      · subst hij
        rw [List.get?_set_eq] at h
        cases hg : s.phases.get? i <;> rw [hg] at h <;> simp at h
      · rw [List.get?_set_ne _ _ hij] at h
        exact hdone j o h
    · show runningCount (s.phases.set i TaskPhase.running) ≤ C
      simp only [runningCount] at hcap ⊢
      omega
    · show s.calls + 1 = runningCount _ + doneCount _
      simp only [runningCount, doneCount] at hcalls ⊢
      omega
  | finish i p hrunning hp =>
    have hruneq := countP_set_add TaskPhase.isRunning s.phases i _ (TaskPhase.done (op p)) hrunning
    have hdoneeq := countP_set_add TaskPhase.isDone s.phases i _ (TaskPhase.done (op p)) hrunning
    simp [TaskPhase.isRunning, TaskPhase.isDone] at hruneq hdoneeq
    refine ⟨by simp [hlen], ?_, ?_, ?_⟩
    · intro j o h
      by_cases hij : i = j
      · subst hij
        rw [List.get?_set_eq, hrunning] at h
        simp only [Option.map_some] at h
        cases h
        exact ⟨p, hp, rfl⟩
      · rw [List.get?_set_ne _ _ hij] at h
        exact hdone j o h
    · show runningCount (s.phases.set i (TaskPhase.done (op p))) ≤ C
      simp only [runningCount] at hrun ⊢
      omega
    · show s.calls = runningCount _ + doneCount _
      simp only [runningCount, doneCount] at hcalls ⊢
      omega

theorem reachable_inv {α β : Type} {C : Nat} {op : β → Outcome α} {payloads : List β}
    {s : DispatchState α} (h : Reachable C op payloads s) :
    DispatchInv C op payloads s := by
  induction h with
  | refl => exact dispatchInv_init C op payloads
  | tail _ hstep ih => exact dispatchInv_step ih hstep

/-- Once every task has finished, `asyncio.gather` returns exactly the
operation's outcome for each payload, in input order. -/
theorem gatherResult_eq_map {α β : Type} (op : β → Outcome α) (phases : List (TaskPhase α))
    (payloads : List β) (hlen : phases.length = payloads.length)
    (hall : allDone phases = true)
    (hok : ∀ i o, phases.get? i = some (TaskPhase.done o) →
      ∃ p, payloads.get? i = some p ∧ o = op p) :
    gatherResult phases = some (payloads.map op) := by
  induction phases generalizing payloads with
  | nil =>
    cases payloads with
    | nil => rfl
    | cons p ps => simp at hlen
  | cons ph rest ih =>
    cases payloads with
    | nil => simp at hlen
    | cons p ps =>
      rw [allDone, List.all_cons, Bool.and_eq_true] at hall
      obtain ⟨hph, hall⟩ := hall
      cases ph with
      | pending => simp [TaskPhase.isDone] at hph
      | running => simp [TaskPhase.isDone] at hph
      | done o =>
        obtain ⟨q, hq, ho⟩ := hok 0 o rfl
        have hq' : p = q := by
          simp only [List.get?] at hq
          injection hq
        subst hq'
        subst ho
        have hrest := ih ps (by simpa using hlen) hall (fun i o h => hok (i + 1) o h)
        show (gatherResult rest).map (fun l => op p :: l) = some ((p :: ps).map op)
        rw [hrest]
        rfl

/-- A batch with no pending and no running task has every task finished. -/
theorem allDone_of_counts {α : Type} (l : List (TaskPhase α))
    (hp : pendingCount l = 0) (hr : runningCount l = 0) : allDone l = true := by
  rw [allDone, List.all_eq_true]
  intro x hx
  rw [pendingCount, List.countP_eq_zero] at hp
  rw [runningCount, List.countP_eq_zero] at hr
  have h1 := hp x hx
  have h2 := hr x hx
  cases x with
  | pending => simp [TaskPhase.isPending] at h1
  | running => simp [TaskPhase.isRunning] at h2
  | done o => rfl

theorem exists_index_of_countP_pos {τ : Type} (p : τ → Bool) (l : List τ)
    (h : 0 < l.countP p) : ∃ i a, l.get? i = some a ∧ p a = true := by
  obtain ⟨a, ha, hpa⟩ := List.countP_pos.mp h
  obtain ⟨i, hi⟩ := List.mem_iff_get?.mp ha
  exact ⟨i, a, hi, hpa⟩

theorem countP_map_const_false {τ σ : Type} (p : σ → Bool) (f : τ → σ) (l : List τ)
    (h : ∀ x, p (f x) = false) : (l.map f).countP p = 0 := by
  rw [List.countP_eq_zero]
  intro a ha
  obtain ⟨x, _, rfl⟩ := List.mem_map.mp ha
  simp [h x]

/-- From any dispatch state with one result slot per payload, the batch can
run to completion within a fuel bound: some schedule finishes every task.
Needs at least one permit (`1 ≤ C`). -/
theorem exists_completion_fuel {α β : Type} (C : Nat) (op : β → Outcome α)
    (payloads : List β) (hC : 1 ≤ C) :
    ∀ (n : Nat) (s : DispatchState α),
      2 * pendingCount s.phases + runningCount s.phases ≤ n →
      s.phases.length = payloads.length →
      ∃ s', Relation.ReflTransGen (Step C op payloads) s s' ∧ allDone s'.phases = true := by
  intro n
  induction n with
  | zero =>
    intro s hm _
    exact ⟨s, Relation.ReflTransGen.refl, allDone_of_counts _ (by omega) (by omega)⟩
  | succ m ih =>
    intro s hm hlen
    by_cases hrun : 0 < runningCount s.phases
    · obtain ⟨i, a, hi, hpa⟩ := exists_index_of_countP_pos _ _ hrun
      cases a with
      | pending => simp [TaskPhase.isPending, TaskPhase.isRunning] at hpa
      | done o => simp [TaskPhase.isDone, TaskPhase.isRunning] at hpa
      | running =>
        have hilt : i < payloads.length := by
          obtain ⟨hlt, _⟩ := List.get?_eq_some.mp hi
          omega
        obtain ⟨p, hp⟩ : ∃ p, payloads.get? i = some p := ⟨_, List.get?_eq_get hilt⟩
        have hstep := @Step.finish α β C op payloads s i p hi hp
        have hpeq := countP_set_add TaskPhase.isPending s.phases i _
          (TaskPhase.done (op p)) hi
        have hreq := countP_set_add TaskPhase.isRunning s.phases i _
          (TaskPhase.done (op p)) hi
        simp [TaskPhase.isPending, TaskPhase.isRunning] at hpeq hreq
        obtain ⟨s', htr, hdone⟩ := ih
          { phases := s.phases.set i (TaskPhase.done (op p)),
            calls := s.calls }
          (by
            show 2 * pendingCount (s.phases.set i _) + runningCount (s.phases.set i _) ≤ m
            simp only [pendingCount, runningCount] at hpeq hreq hm hrun ⊢
            omega)
          (by simp [hlen])
        exact ⟨s', Relation.ReflTransGen.head hstep htr, hdone⟩
    · by_cases hpend : 0 < pendingCount s.phases
      · obtain ⟨i, a, hi, hpa⟩ := exists_index_of_countP_pos _ _ hpend
        cases a with
        | running => simp [TaskPhase.isPending, TaskPhase.isRunning] at hpa
        | done o => simp [TaskPhase.isDone, TaskPhase.isPending] at hpa
        | pending =>
          have hstep := @Step.acquire α β C op payloads s i hi (by omega)
          have hpeq := countP_set_add TaskPhase.isPending s.phases i _ TaskPhase.running hi
          have hreq := countP_set_add TaskPhase.isRunning s.phases i _ TaskPhase.running hi
          simp [TaskPhase.isPending, TaskPhase.isRunning] at hpeq hreq
          obtain ⟨s', htr, hdone⟩ := ih
            { phases := s.phases.set i TaskPhase.running, calls := s.calls + 1 }
            (by
              show 2 * pendingCount (s.phases.set i _) + runningCount (s.phases.set i _) ≤ m
              simp only [pendingCount, runningCount] at hpeq hreq hm hpend ⊢
              omega)
            (by simp [hlen])
          exact ⟨s', Relation.ReflTransGen.head hstep htr, hdone⟩
      · exact ⟨s, Relation.ReflTransGen.refl, allDone_of_counts _ (by omega) (by omega)⟩

/-- From any reachable dispatch state the batch can always be driven to a
reachable state in which every task has finished: the dispatch neither
hangs nor deadlocks. -/
theorem reachable_completion {α β : Type} {C : Nat} {op : β → Outcome α} {payloads : List β}
    {s : DispatchState α} (hC : 1 ≤ C) (hr : Reachable C op payloads s) :
    ∃ s', Relation.ReflTransGen (Step C op payloads) s s' ∧
      Reachable C op payloads s' ∧ allDone s'.phases = true := by
  obtain ⟨hlen, _, _, _⟩ := reachable_inv hr
  obtain ⟨s', htr, hdone⟩ := exists_completion_fuel C op payloads hC
    (2 * pendingCount s.phases + runningCount s.phases) s (le_refl _) hlen
  exact ⟨s', htr, Relation.ReflTransGen.trans hr htr, hdone⟩

theorem runningCount_midPhases {α β : Type} (op : β → Outcome α) (payloads : List β)
    (k : Nat) : runningCount (midPhases op payloads k) = 0 := by
  rw [runningCount, midPhases, List.countP_append]
  rw [countP_map_const_false _ _ _ (fun _ => rfl)]
  rw [countP_map_const_false _ _ _ (fun _ => rfl)]

/-- The sequential one-at-a-time schedule reaches each intermediate state:
first `k` payloads finished, the rest pending, `k` calls issued. -/
theorem reachable_midState {α β : Type} (C : Nat) (op : β → Outcome α) (payloads : List β)
    (hC : 1 ≤ C) :
    ∀ k, k ≤ payloads.length →
      Reachable C op payloads { phases := midPhases op payloads k, calls := k } := by
  intro k
  induction k with
  | zero =>
    intro _
    have heq : midPhases op payloads 0 =
        (payloads.map (fun _ => TaskPhase.pending) : List (TaskPhase α)) := by
      simp [midPhases]
    rw [Reachable, initState]
    rw [heq]
  | succ k ih =>
    intro hk1
    have hk : k < payloads.length := hk1
    have hr := ih (Nat.le_of_lt hk)
    obtain ⟨p, hp⟩ : ∃ p, payloads.get? k = some p := ⟨_, List.get?_eq_get hk⟩
    have hlenA : ((payloads.take k).map
        (fun p => TaskPhase.done (op p)) : List (TaskPhase α)).length = k := by
      rw [List.length_map, List.length_take]
      exact min_eq_left (Nat.le_of_lt hk)
    have hdropk : payloads.drop k = p :: payloads.drop (k + 1) := by
      rw [List.drop_eq_getElem_cons hk]
      rw [List.get?_eq_getElem?] at hp
      have : payloads[k] = p := by
        have := List.getElem?_eq_getElem (l := payloads) hk
        rw [this] at hp
        injection hp
      rw [this]
    have hmid : midPhases op payloads k =
        ((payloads.take k).map (fun p => TaskPhase.done (op p)) : List (TaskPhase α)) ++
          TaskPhase.pending :: (payloads.drop (k + 1)).map (fun _ => TaskPhase.pending) := by
      rw [midPhases, hdropk]
      rfl
    have hpend : (midPhases op payloads k).get? k = some TaskPhase.pending := by
      rw [hmid]
      rw [List.get?_append_right (by omega)]
      rw [hlenA]
      simp
    have hcap : runningCount (midPhases op payloads k) < C := by
      rw [runningCount_midPhases]
      omega
    have step1 := @Step.acquire α β C op payloads
      { phases := midPhases op payloads k, calls := k } k hpend hcap
    have hrun2 : ((midPhases op payloads k).set k TaskPhase.running).get? k =
        some TaskPhase.running := by
      rw [List.get?_set_eq, hpend]
      rfl
    have step2 := @Step.finish α β C op payloads
      { phases := (midPhases op payloads k).set k TaskPhase.running, calls := k + 1 }
      k p hrun2 hp
    have hset : ((midPhases op payloads k).set k TaskPhase.running).set k
        (TaskPhase.done (op p)) = midPhases op payloads (k + 1) := by
      rw [List.set_set, hmid]
      have := set_append_length
        ((payloads.take k).map (fun p => TaskPhase.done (op p)) : List (TaskPhase α))
        ((payloads.drop (k + 1)).map (fun _ => TaskPhase.pending))
        TaskPhase.pending (TaskPhase.done (op p))
      rw [hlenA] at this
      rw [this]
      rw [midPhases, List.take_succ]
      rw [← List.get?_eq_getElem?, hp]
      rw [List.map_append]
      simp
    have htrace := Relation.ReflTransGen.tail (Relation.ReflTransGen.tail hr step1) step2
    rw [hset] at htrace
    exact htrace

/-- With at least one permit, the batch can always be driven to its natural
final state: every slot finished with its own operation's outcome. -/
theorem reachable_finalState {α β : Type} (C : Nat) (op : β → Outcome α) (payloads : List β)
    (hC : 1 ≤ C) : Reachable C op payloads (finalState op payloads) := by
  have h := reachable_midState C op payloads hC payloads.length (le_refl _)
  have heq : midPhases op payloads payloads.length =
      (payloads.map (fun p => TaskPhase.done (op p)) : List (TaskPhase α)) := by
    rw [midPhases, List.take_length, List.drop_length]
    simp
  rw [heq] at h
  exact h

/-- In the natural final state every task is finished. -/
theorem allDone_finalState {α β : Type} (op : β → Outcome α) (payloads : List β) :
    allDone (finalState op payloads).phases = true := by
  rw [finalState, allDone, List.all_eq_true]
  intro x hx
  obtain ⟨q, _, rfl⟩ := List.mem_map.mp hx
  rfl

/-- C1: For every input list of `N` payloads (`N ≥ 0`) and every concurrency
limit `C ≥ 1`, whatever schedule the batch dispatch completes under, it
returns exactly `N` Outcomes, and the Outcome at position `i` is the result
of the operation applied to the payload at position `i` of the input —
regardless of the order in which the underlying operations complete. -/
theorem dispatch_returns_input_ordered_outcomes {α β : Type} (C : Nat) (op : β → Outcome α)
    (payloads : List β) (s : DispatchState α) (hC : 1 ≤ C)
    (hr : Reachable C op payloads s) (hdone : allDone s.phases = true) :
    ∃ results, gatherResult s.phases = some results ∧
      results.length = payloads.length ∧
      ∀ i p, payloads.get? i = some p → results.get? i = some (op p) := by
  obtain ⟨hlen, hok, _, _⟩ := reachable_inv hr
  have hmap := gatherResult_eq_map op s.phases payloads hlen hdone hok
  refine ⟨payloads.map op, hmap, List.length_map _ _, ?_⟩
  intro i p hp
  rw [List.get?_map, hp]
  rfl

/-- Witness for C1: batch `[10, 20]` under `C = 2` with a successful
operation, at the completed state of the sequential schedule. -/
theorem dispatch_returns_input_ordered_outcomes_witness :
    ∃ results,
      gatherResult (finalState (fun n : Nat => Outcome.Success (n + 1)) [10, 20]).phases =
        some results ∧
      results.length = ([10, 20] : List Nat).length ∧
      ∀ i p, ([10, 20] : List Nat).get? i = some p →
        results.get? i = some (Outcome.Success (p + 1)) :=
  dispatch_returns_input_ordered_outcomes 2 (fun n => Outcome.Success (n + 1)) [10, 20]
    (finalState (fun n : Nat => Outcome.Success (n + 1)) [10, 20]) (by decide)
    (reachable_finalState 2 (fun n => Outcome.Success (n + 1)) [10, 20] (by decide))
    (allDone_finalState (fun n => Outcome.Success (n + 1)) [10, 20])

/-- C2: In every reachable state of every batch dispatch with concurrency
limit `C`, the number of per-item operations concurrently in flight — tasks
that entered the remote call and have not yet finished it — is at most `C`. -/
theorem dispatch_concurrency_bounded {α β : Type} (C : Nat) (op : β → Outcome α)
    (payloads : List β) (s : DispatchState α) (hr : Reachable C op payloads s) :
    runningCount s.phases ≤ C :=
  (reachable_inv hr).2.2.1

/-- Witness for C2: after one task of the batch `[5, 6]` has acquired the
single permit (`C = 1`), the in-flight count is within the limit. -/
theorem dispatch_concurrency_bounded_witness :
    runningCount ({ phases := [TaskPhase.running, TaskPhase.pending], calls := 1 } :
      DispatchState Nat).phases ≤ 1 :=
  dispatch_concurrency_bounded 1 (fun n : Nat => Outcome.Success n) [5, 6]
    { phases := [TaskPhase.running, TaskPhase.pending], calls := 1 }
    (Relation.ReflTransGen.single
      (@Step.acquire Nat Nat 1 (fun n : Nat => Outcome.Success n) [5, 6]
        (initState [5, 6]) 0 rfl (by decide)))

/-- C3: A `RemoteError` failure of the operation at index `i` neither
cancels nor blocks any task `j ≠ i`: from every reachable state of the
dispatch, every task still runs to its own completion and the completed
state records each task's own outcome at its own index. -/
theorem dispatch_failure_isolation {α β : Type} (C : Nat) (op : β → Outcome α)
    (payloads : List β) (i : Nat) (p : β) (e : RemoteError) (s : DispatchState α)
    (hC : 1 ≤ C) (hi : payloads.get? i = some p) (hfail : op p = Outcome.Failure e)
    (hr : Reachable C op payloads s) :
    ∃ s', Relation.ReflTransGen (Step C op payloads) s s' ∧ allDone s'.phases = true ∧
      ∀ j q, payloads.get? j = some q → s'.phases.get? j = some (TaskPhase.done (op q)) := by
  obtain ⟨s', htr, hreach, hdone⟩ := reachable_completion hC hr
  refine ⟨s', htr, hdone, ?_⟩
  intro j q hq
  obtain ⟨hlen, hok, _, _⟩ := reachable_inv hreach
  have hj : j < s'.phases.length := by
    obtain ⟨hlt, _⟩ := List.get?_eq_some.mp hq
    omega
  obtain ⟨ph, hph⟩ : ∃ ph, s'.phases.get? j = some ph := ⟨_, List.get?_eq_get hj⟩
  have hmem := List.get?_mem hph
  have hdph : TaskPhase.isDone ph = true := by
    rw [allDone, List.all_eq_true] at hdone
    exact hdone ph hmem
  cases ph with
  | pending => simp [TaskPhase.isDone] at hdph
  | running => simp [TaskPhase.isDone] at hdph
  | done o =>
    obtain ⟨q', hq', ho⟩ := hok j o hph
    rw [hq] at hq'
    injection hq' with hq'
    subst hq'
    rw [hph, ho]

/-- Witness for C3: batch `[0, 1]` under `C = 1` whose operation fails with
`NotFound` at index 0, taken from the initial state. -/
theorem dispatch_failure_isolation_witness :
    ∃ s', Relation.ReflTransGen
        (Step 1 (fun n : Nat => if n == 0 then Outcome.Failure RemoteError.NotFound
          else Outcome.Success n) [0, 1]) (initState [0, 1]) s' ∧
      allDone s'.phases = true ∧
      ∀ j q, ([0, 1] : List Nat).get? j = some q →
        s'.phases.get? j = some (TaskPhase.done
          (if q == 0 then Outcome.Failure RemoteError.NotFound else Outcome.Success q)) :=
  dispatch_failure_isolation 1
    (fun n : Nat => if n == 0 then Outcome.Failure RemoteError.NotFound
      else Outcome.Success n)
    [0, 1] 0 0 RemoteError.NotFound (initState [0, 1])
    (by decide) rfl rfl Relation.ReflTransGen.refl

/-- C4: A per-item `RemoteError` failure is captured as a `Failure` Outcome
inside the sequence the batch call returns and is never raised out of the
dispatcher call itself; the batch call fails outright only when the
batch-level input is malformed. -/
theorem dispatch_failures_captured_not_raised {α β : Type} (op : β → Outcome α)
    (payloads : List β) (i : Nat) (p : β) (e : RemoteError)
    (hi : payloads.get? i = some p) (hfail : op p = Outcome.Failure e) :
    (∃ outs, bulkDispatch op (some payloads) = Except.ok outs ∧
      outs.get? i = some (Outcome.Failure e)) ∧
    (∀ input err, bulkDispatch op input = Except.error err → input = none) := by
  constructor
  · refine ⟨payloads.map op, rfl, ?_⟩
    rw [List.get?_map, hi]
    simp [hfail]
  · intro input err herr
    cases input with
    | none => rfl
    | some l => simp [bulkDispatch] at herr

/-- Witness for C4: a batch `[0, 1]` whose operation fails with `Timeout`
at index 0. -/
theorem dispatch_failures_captured_not_raised_witness :
    (∃ outs, bulkDispatch
        (fun n : Nat => if n == 0 then Outcome.Failure RemoteError.Timeout
          else Outcome.Success n) (some [0, 1]) = Except.ok outs ∧
      outs.get? 0 = some (Outcome.Failure RemoteError.Timeout)) ∧
    (∀ input err, bulkDispatch
        (fun n : Nat => if n == 0 then Outcome.Failure RemoteError.Timeout
          else Outcome.Success n) input = Except.error err → input = none) :=
  dispatch_failures_captured_not_raised
    (fun n : Nat => if n == 0 then Outcome.Failure RemoteError.Timeout
      else Outcome.Success n)
    [0, 1] 0 0 RemoteError.Timeout rfl rfl

/-- C5: The permit discipline of the dispatch: in every reachable state of
every batch the held permits never exceed the capacity `C`; every remote
call started either still holds its permit or has finished — success or
failure alike — and released it; and once the whole batch has completed,
the number of held permits is back to zero. -/
theorem dispatch_permit_discipline {α β : Type} (C : Nat) (op : β → Outcome α)
    (payloads : List β) (s : DispatchState α) (hr : Reachable C op payloads s) :
    runningCount s.phases ≤ C ∧
    s.calls = runningCount s.phases + doneCount s.phases ∧
    (allDone s.phases = true → runningCount s.phases = 0) := by
  obtain ⟨_, _, hb, hc⟩ := reachable_inv hr
  refine ⟨hb, hc, ?_⟩
  intro hdone
  rw [runningCount, List.countP_eq_zero]
  intro a ha
  rw [allDone, List.all_eq_true] at hdone
  have hda := hdone a ha
  cases a with
  | done o => simp [TaskPhase.isRunning]
  | pending => simp [TaskPhase.isDone] at hda
  | running => simp [TaskPhase.isDone] at hda

/-- Witness for C5: the completed batch `[7]` under `C = 1`, with its
operation failing — the permit is released regardless. -/
theorem dispatch_permit_discipline_witness :
    runningCount (finalState (fun _ : Nat => (Outcome.Failure RemoteError.NotFound : Outcome Nat)) [7]).phases
        ≤ 1 ∧
    (finalState (fun _ : Nat => (Outcome.Failure RemoteError.NotFound : Outcome Nat)) [7]).calls =
      runningCount (finalState (fun _ : Nat => (Outcome.Failure RemoteError.NotFound : Outcome Nat)) [7]).phases +
      doneCount (finalState (fun _ : Nat => (Outcome.Failure RemoteError.NotFound : Outcome Nat)) [7]).phases ∧
    (allDone (finalState (fun _ : Nat => (Outcome.Failure RemoteError.NotFound : Outcome Nat)) [7]).phases = true →
      runningCount (finalState (fun _ : Nat => (Outcome.Failure RemoteError.NotFound : Outcome Nat)) [7]).phases
        = 0) :=
  dispatch_permit_discipline 1 (fun _ : Nat => (Outcome.Failure RemoteError.NotFound : Outcome Nat)) [7]
    (finalState (fun _ : Nat => (Outcome.Failure RemoteError.NotFound : Outcome Nat)) [7])
    (reachable_finalState 1 (fun _ : Nat => (Outcome.Failure RemoteError.NotFound : Outcome Nat)) [7]
      (by decide))

/-- C6: Dispatching the empty batch (`N = 0`) under any concurrency limit
never moves past the initial state: the result is the empty Outcome
sequence and zero remote calls are issued — the per-item operation is never
invoked. -/
theorem dispatch_empty_batch {α β : Type} (C : Nat) (op : β → Outcome α)
    (s : DispatchState α) (hr : Reachable C op ([] : List β) s) :
    s = initState ([] : List β) ∧ s.calls = 0 ∧ gatherResult s.phases = some [] := by
  have hs : s = initState ([] : List β) := by
    rw [Reachable] at hr
    induction hr with
    | refl => rfl
    | tail hab hstep ih =>
      cases hstep with
      | acquire i hpend hcap =>
        rw [ih] at hpend
        simp [initState] at hpend
      | finish i p hrunning hp => simp at hp
  subst hs
  exact ⟨rfl, rfl, rfl⟩

/-- Witness for C6: the empty batch under `C = 5`. -/
theorem dispatch_empty_batch_witness :
    (initState ([] : List Nat) : DispatchState Nat) = initState ([] : List Nat) ∧
    (initState ([] : List Nat) : DispatchState Nat).calls = 0 ∧
    gatherResult (initState ([] : List Nat) : DispatchState Nat).phases = some [] :=
  dispatch_empty_batch 5 (fun n : Nat => Outcome.Success n)
    (initState ([] : List Nat)) Relation.ReflTransGen.refl

/-- C7: Completion-order independence: for one fixed input list and
operation, any two schedules under which the batch completes — any two
assignments of completion latencies to the items — produce the same Outcome
sequence: the result's ordering and contents are fixed by input index
alone. -/
theorem dispatch_schedule_independent {α β : Type} (C : Nat) (op : β → Outcome α)
    (payloads : List β) (s₁ s₂ : DispatchState α)
    (h₁ : Reachable C op payloads s₁) (hd₁ : allDone s₁.phases = true)
    (h₂ : Reachable C op payloads s₂) (hd₂ : allDone s₂.phases = true) :
    gatherResult s₁.phases = gatherResult s₂.phases := by
  obtain ⟨hlen1, hok1, _, _⟩ := reachable_inv h₁
  obtain ⟨hlen2, hok2, _, _⟩ := reachable_inv h₂
  rw [gatherResult_eq_map op _ payloads hlen1 hd₁ hok1,
    gatherResult_eq_map op _ payloads hlen2 hd₂ hok2]

/-- Witness for C7: the batch `[1, 2, 3]` under `C = 2` compared across two
completed schedules. -/
theorem dispatch_schedule_independent_witness :
    gatherResult (finalState (fun n : Nat => Outcome.Success (n * 2)) [1, 2, 3]).phases =
      gatherResult (finalState (fun n : Nat => Outcome.Success (n * 2)) [1, 2, 3]).phases :=
  dispatch_schedule_independent 2 (fun n : Nat => Outcome.Success (n * 2)) [1, 2, 3]
    (finalState (fun n : Nat => Outcome.Success (n * 2)) [1, 2, 3])
    (finalState (fun n : Nat => Outcome.Success (n * 2)) [1, 2, 3])
    (reachable_finalState 2 (fun n : Nat => Outcome.Success (n * 2)) [1, 2, 3] (by decide))
    (allDone_finalState (fun n : Nat => Outcome.Success (n * 2)) [1, 2, 3])
    (reachable_finalState 2 (fun n : Nat => Outcome.Success (n * 2)) [1, 2, 3] (by decide))
    (allDone_finalState (fun n : Nat => Outcome.Success (n * 2)) [1, 2, 3])

/-- C8: Every failure the single-record collaborator can produce is a
`RemoteError` of kind `NotFound`, `AuthenticationFailure`,
`RateLimited(retry_after)`, `ServiceError(message)` or the
dispatcher-imposed `Timeout`; in particular every `Failure` Outcome
recorded in a dispatch result slot carries one of these kinds. -/
theorem dispatch_error_taxonomy {α β : Type} (C : Nat) (op : β → Outcome α)
    (payloads : List β) (s : DispatchState α) (hr : Reachable C op payloads s)
    (i : Nat) (e : RemoteError)
    (hslot : s.phases.get? i = some (TaskPhase.done (Outcome.Failure e))) :
    e = RemoteError.NotFound ∨ e = RemoteError.AuthenticationFailure ∨
    (∃ retry, e = RemoteError.RateLimited retry) ∨
    (∃ msg, e = RemoteError.ServiceError msg) ∨ e = RemoteError.Timeout := by
  cases e with
  | NotFound => exact Or.inl rfl
  | AuthenticationFailure => exact Or.inr (Or.inl rfl)
  | RateLimited r => exact Or.inr (Or.inr (Or.inl ⟨r, rfl⟩))
  | ServiceError m => exact Or.inr (Or.inr (Or.inr (Or.inl ⟨m, rfl⟩)))
  | Timeout => exact Or.inr (Or.inr (Or.inr (Or.inr rfl)))

/-- Witness for C8: a completed batch `[1]` whose operation failed rate
limited with `retry_after = 30`. -/
theorem dispatch_error_taxonomy_witness :
    RemoteError.RateLimited 30 = RemoteError.NotFound ∨
    RemoteError.RateLimited 30 = RemoteError.AuthenticationFailure ∨
    (∃ retry, RemoteError.RateLimited 30 = RemoteError.RateLimited retry) ∨
    (∃ msg, RemoteError.RateLimited 30 = RemoteError.ServiceError msg) ∨
    RemoteError.RateLimited 30 = RemoteError.Timeout :=
  dispatch_error_taxonomy 1 (fun _ : Nat => (Outcome.Failure (RemoteError.RateLimited 30) : Outcome Nat)) [1]
    (finalState (fun _ : Nat => (Outcome.Failure (RemoteError.RateLimited 30) : Outcome Nat)) [1])
    (reachable_finalState 1 (fun _ : Nat => (Outcome.Failure (RemoteError.RateLimited 30) : Outcome Nat)) [1]
      (by decide))
    0 (RemoteError.RateLimited 30) rfl

/-- C9: Reading a `.env` file via `dotenv_values`, as `example_dotenv_values`
does, leaves `os.environ` unchanged: for every prior environment state,
looking up any key — in particular one that appears only in the `.env`
file — gives the same result (absent or same value) after the call as
before it, while the mapping returned carries the file's key-value pairs. -/
theorem dotenv_values_leaves_environ_unchanged (ps : ProcState) (tmpdir k : String) :
    lookupEnv ((exampleDotenvValues ps tmpdir).2).environ k = lookupEnv ps.environ k ∧
    (exampleDotenvValues ps tmpdir).1 =
      [("NOCODB_BASE_URL", "https://isolated-example.com"),
       ("NOCODB_API_TOKEN", "isolated-token"),
       ("NOCODB_TIMEOUT", "45.0")] := by
  constructor
  · rfl
  · have hread : readText (writeText ps (tmpdir ++ "/.env") isolatedEnvContent)
        (tmpdir ++ "/.env") = some isolatedEnvContent := by
      show lookupEnv ((tmpdir ++ "/.env", isolatedEnvContent) :: ps.files)
        (tmpdir ++ "/.env") = some isolatedEnvContent
      rw [lookupEnv, if_pos rfl]
    show (match readText (writeText ps (tmpdir ++ "/.env") isolatedEnvContent)
        (tmpdir ++ "/.env") with
      | some content => dotenvValues content
      | none => []) = _
    rw [hread]
    decide

/-- C10: The async example script's top level reaches the
`nocodb_simple_client` import statements exactly when both `aiohttp` and
`aiofiles` are found; when either is missing, it prints the installation
message and exits with status 1, and the package import never runs. -/
theorem async_example_guards_import (deps : DepsAvailable) :
    (asyncExampleTopLevel deps = [ScriptEvent.ImportedNocodbPackage] ↔
      deps.aiohttp = true ∧ deps.aiofiles = true) ∧
    (deps.aiohttp = false ∨ deps.aiofiles = false →
      asyncExampleTopLevel deps =
        [ScriptEvent.PrintedInstallMessage, ScriptEvent.ExitedWith 1] ∧
      ScriptEvent.ImportedNocodbPackage ∉ asyncExampleTopLevel deps) := by
  cases deps with
  | mk a f => cases a <;> cases f <;> decide

/-- Witness for C10: with `aiohttp` missing the script prints the
installation message, exits with status 1 and never imports the package. -/
theorem async_example_guards_import_witness :
    asyncExampleTopLevel { aiohttp := false, aiofiles := true } =
      [ScriptEvent.PrintedInstallMessage, ScriptEvent.ExitedWith 1] ∧
    ScriptEvent.ImportedNocodbPackage ∉
      asyncExampleTopLevel { aiohttp := false, aiofiles := true } :=
  (async_example_guards_import { aiohttp := false, aiofiles := true }).2 (Or.inl rfl)
